import Mathlib

/-!
Shallow embedding of the query-parsing and ranking core of the-library
(src/server/api/services/parser.py, src/server/api/services/scorer.py,
src/server/api/models/scoring_config.py), together with proofs settling
the frozen claims about it.

Strings are modelled as `List Char`; we cover the ASCII fragment of the
Python regexes (Python's \w and \s are Unicode-aware, but every claim and
every concrete input below is ASCII, where \w = [A-Za-z0-9_] and \s is the
six usual whitespace characters).  Floats are modelled as `ℚ`.
-/

/-- ASCII fragment of Python's \s (also what str.strip and str.split strip). -/
def isPySpace (c : Char) : Bool :=
  c == ' ' || c == '\t' || c == '\n' || c == '\r' || c == '\x0b' || c == '\x0c'

/-- ASCII fragment of Python's \w : [A-Za-z0-9_]. -/
def isWordChar (c : Char) : Bool :=
  c.isAlphanum || c == '_'

/-- Python str.strip(): drop whitespace at both ends. -/
def stripEnds (s : List Char) : List Char :=
  ((s.dropWhile isPySpace).reverse.dropWhile isPySpace).reverse

/-- Embeds re.sub(r'\s+', ' ', s): each maximal whitespace run becomes one space. -/
def collapseWS : List Char → List Char
  | [] => []
  | c :: cs =>
    if isPySpace c then ' ' :: collapseWS (cs.dropWhile isPySpace)
    else c :: collapseWS cs
termination_by l => l.length
decreasing_by
  · simp only [List.length_cons]
    have h := (List.dropWhile_sublist (l := cs) (p := isPySpace)).length_le
    omega
  · simp only [List.length_cons]
    omega

/-- Python str.split(): split on whitespace runs, dropping empty pieces. -/
def splitWords (s : List Char) : List (List Char) :=
  let s' := s.dropWhile isPySpace
  if h : s' = [] then []
  else
    (s'.takeWhile (fun c => !isPySpace c)) ::
      splitWords (s'.dropWhile (fun c => !isPySpace c))
termination_by s.length
decreasing_by
  have h1 : (s.dropWhile isPySpace).length ≤ s.length :=
    (List.dropWhile_sublist _).length_le
  rcases hs : s.dropWhile isPySpace with _ | ⟨c, cs⟩
  · exact absurd hs h
  · have hc : isPySpace c = false := by
      have hne : s.dropWhile isPySpace ≠ [] := by rw [hs]; simp
      have h3 := List.head_dropWhile_not isPySpace s hne
      have h5 := List.head?_eq_head (l := s.dropWhile isPySpace) hne
      have h6 : (s.dropWhile isPySpace).head? = some c := by rw [hs]; rfl
      have h4 := Option.some.inj (h5.symm.trans h6)
      rwa [h4] at h3
    have h2 : (List.dropWhile (fun c => !isPySpace c) (c :: cs)).length ≤ cs.length := by
      rw [List.dropWhile_cons]
      simp only [hc]
      simpa using (List.dropWhile_sublist (l := cs) (p := fun c => !isPySpace c)).length_le
    rw [hs] at h1
    simp only [List.length_cons] at h1
    omega

/-- Embeds QueryParser._extract_first_quoted_phrase: the leftmost match of the
regex "([^"]+)" (a quote, at least one non-quote character, a quote), returning
the captured group verbatim. -/
def extractFirstQuotedPhrase : List Char → Option (List Char)
  | [] => none
  | c :: cs =>
    if c = '"' then
      let t := cs.takeWhile (fun d => d ≠ '"')
      if t ≠ [] ∧ cs.drop t.length ≠ [] then some t
      else extractFirstQuotedPhrase cs
    else extractFirstQuotedPhrase cs

/-- Case-insensitive match of pattern `w` against a prefix of the text
(re.IGNORECASE is Char.toLower comparison in the ASCII fragment). -/
def matchesCI : List Char → List Char → Bool
  | [], _ => true
  | _ :: _, [] => false
  | w :: ws, c :: cs =>
    if c.toLower = w.toLower then matchesCI ws cs else false

/-- The \b assertion after a match of `w` starting at text `l`: the character
following the matched prefix, if any, is a non-word character.  (Our patterns
end in a letter, so the trailing \b needs exactly this.) -/
def boundaryAfter (w : List Char) (l : List Char) : Bool :=
  match (l.drop w.length).head? with
  | none => true
  | some c => !isWordChar c

/-- Does re.search(\b w \b, ·, IGNORECASE) succeed somewhere in the text?
`p` records whether the character just before the current position is a word
character (false at the start of the string).  Our patterns start with a
letter, so the leading \b holds exactly when `p` is false. -/
def hasMatch (w : List Char) : Bool → List Char → Bool
  | _, [] => false
  | p, c :: cs =>
    (!p && matchesCI w (c :: cs) && boundaryAfter w (c :: cs)) ||
      hasMatch w (isWordChar c) cs

/-- Embeds re.search(r'\b(AND|OR|NOT)\b', s, re.IGNORECASE). -/
def hasOpMatch (s : List Char) : Bool :=
  hasMatch ['a', 'n', 'd'] false s || hasMatch ['o', 'r'] false s ||
    hasMatch ['n', 'o', 't'] false s

/-- Worker for re.sub(\b w \b, rep, ·, IGNORECASE).  On a match the scan
resumes after the matched text; the previous-character flag becomes that of
the last matched character, a letter for our patterns, hence `true`. -/
def subAux (w rep : List Char) : Bool → List Char → List Char
  | _, [] => []
  | p, c :: cs =>
    if !p && matchesCI w (c :: cs) && boundaryAfter w (c :: cs) then
      rep ++ subAux w rep true (cs.drop (w.length - 1))
    else c :: subAux w rep (isWordChar c) cs
termination_by _ l => l.length
decreasing_by
  · simp only [List.length_cons, List.length_drop]
    omega
  · simp

/-- Embeds re.sub(\b w \b, rep, s, flags=re.IGNORECASE). -/
def subWord (w rep : List Char) (s : List Char) : List Char :=
  subAux w rep false s

/-- Embeds QueryParser._convert_to_fts. -/
def convert_to_fts (query : List Char) : List Char :=
  let s := stripEnds (collapseWS query)
  let hasOps := hasOpMatch s
  let terms := splitWords s
  let s2 := if hasOps = false ∧ 1 < terms.length
    then List.intercalate [' ', 'O', 'R', ' '] terms else s
  let s3 := subWord ['n', 'o', 't'] ['N', 'O', 'T']
    (subWord ['o', 'r'] ['O', 'R']
      (subWord ['a', 'n', 'd'] ['A', 'N', 'D'] s2))
  if s3 = [] ∨ s3 = ['A', 'N', 'D'] ∨ s3 = ['O', 'R'] ∨ s3 = ['N', 'O', 'T']
  then [] else s3

/-- Embeds ParsedQuery. -/
structure ParsedQuery where
  fts_query : List Char
  exact_phrase : Option (List Char)
  original_query : List Char
deriving Repr, DecidableEq

/-- Embeds QueryParser.parse. -/
def parse (query : List Char) : ParsedQuery :=
  if stripEnds query = [] then
    { fts_query := [], exact_phrase := none, original_query := query }
  else
    { fts_query := convert_to_fts query
      exact_phrase := extractFirstQuotedPhrase query
      original_query := stripEnds query }

/-- Character class of the validator regex [^\w\s\'"*()AND|OR|NOT-]: inside a
character class the alternation spelling contributes the individual characters
A,N,D,|,O,R,T, so the allowed set is \w, \s, and ' " * ( ) | - (the letters
A,N,D,O,R,T are already in \w). -/
def validAllowedChar (c : Char) : Bool :=
  isWordChar c || isPySpace c || c == '\'' || c == '"' || c == '*' ||
    c == '(' || c == ')' || c == 'A' || c == 'N' || c == 'D' || c == '|' ||
    c == 'O' || c == 'R' || c == 'T' || c == '-'

/-- Embeds QueryParser.validate_query. -/
def validate_query (query : List Char) : Bool :=
  if stripEnds query = [] then false
  else if 1000 < query.length then false
  else if query.count '"' % 2 ≠ 0 then false
  else if query.any (fun c => !validAllowedChar c) then false
  else true

/-- Allowed character set exactly as the spec sentence states it:
[A-Za-z0-9_\s'"*()-] (the operator words AND/OR/NOT add only letters, which
are already included).  Used only to compare the spec's wording with the
code's validator. -/
def specAllowedChar (c : Char) : Bool :=
  (('A' ≤ c && c ≤ 'Z') || ('a' ≤ c && c ≤ 'z') || ('0' ≤ c && c ≤ '9') ||
    c == '_') || isPySpace c || c == '\'' || c == '"' || c == '*' ||
    c == '(' || c == ')' || c == '-'

/-- Whether an optional previous/next character is a word character (absent
counts as non-word), for the \b assertion. -/
def isWordOpt : Option Char → Bool
  | none => false
  | some c => isWordChar c

/-- The \b assertion at the end of a phrase match: `l` is the text from the
match start; the matched text has length `plen` ≥ 1.  Boundary iff the last
matched character and the following character differ in word-ness. -/
def endBoundaryOk (plen : Nat) (l : List Char) : Bool :=
  match l.drop (plen - 1) with
  | [] => true
  | last :: after => isWordChar last != isWordOpt after.head?

/-- Scan for re.search(r'\b' + re.escape(phrase) + r'\b', text, IGNORECASE):
at each position, check the leading \b against the previous character, a
case-insensitive literal match of the phrase, and the trailing \b. -/
def containsExactPhraseAux (phrase : List Char) : Option Char → List Char → Bool
  | _, [] => false
  | prev, c :: cs =>
    ((isWordOpt prev != isWordChar c) && matchesCI phrase (c :: cs) &&
      endBoundaryOk phrase.length (c :: cs)) ||
      containsExactPhraseAux phrase (some c) cs

/-- Embeds QuoteScorer._contains_exact_phrase. -/
def contains_exact_phrase (text phrase : List Char) : Bool :=
  if text = [] ∨ phrase = [] then false
  else containsExactPhraseAux phrase none text

/-- Embeds FieldWeights (src/server/api/models/scoring_config.py) with its
default values. -/
structure FieldWeights where
  quote_text : ℚ := 1
  quote_keywords : ℚ := 4/5
  book_keywords : ℚ := 7/10
  themes : ℚ := 3/5
  summary : ℚ := 1/2
  book_title : ℚ := 3
  book_authors : ℚ := 5/2
  type : ℚ := 2/5
  publisher : ℚ := 3/10
  journal : ℚ := 3/10
deriving Repr, DecidableEq

/-- Embeds ScoringConfig with its default values. -/
structure ScoringConfig where
  bm25_weight : ℚ := 1
  phrase_bonus : ℚ := 2
  field_weights : FieldWeights := {}
deriving Repr, DecidableEq

/-- Embeds LocalOverrides (deprecated, empty). -/
structure LocalOverrides where
deriving Repr, DecidableEq

/-- Embeds TuningProfile. -/
structure TuningProfile where
  name : String
  description : String := ""
  config : ScoringConfig
  overrides : LocalOverrides := {}
deriving Repr, DecidableEq

/-- Embeds ScoringBreakdown.  field_matches keeps insertion order. -/
structure ScoringBreakdown where
  quote_id : Nat
  bm25_raw : ℚ
  bm25_normalized : ℚ
  field_score : ℚ
  field_matches : List (String × ℚ)
  phrase_bonus : ℚ
  final_score : ℚ
deriving Repr, DecidableEq

/-- Mutable state of the QuoteScorer instance (phrase_bonus defaults to 2.0,
scoring_config starts unset). -/
structure QuoteScorer where
  phrase_bonus : ℚ := 2
  scoring_config : Option ScoringConfig := none
deriving Repr, DecidableEq

/-- Embeds QuoteScorer.update_config (local_overrides is deprecated and
ignored; a passed config is always truthy). -/
def QuoteScorer.update_config (s : QuoteScorer) (cfg : Option ScoringConfig) :
    QuoteScorer :=
  match cfg with
  | some c => { s with scoring_config := some c, phrase_bonus := c.phrase_bonus }
  | none => s

/-- One row of the fast-path FTS query (quotes_fts JOIN quotes): fts.rank is
the raw BM25 statistic. -/
structure QuoteRow where
  id : Nat
  book_id : Nat
  quote_text : List Char
  page : Option Int
  keywords : Option (List Char)
  source_file : Option (List Char)
  bm25_score : ℚ
deriving Repr, DecidableEq

/-- A fast-path hit after scoring (the dict with keys score, phrase_bonus,
base_score added). -/
structure ScoredQuote where
  row : QuoteRow
  score : ℚ
  phrase_bonus : ℚ
  base_score : ℚ
deriving Repr, DecidableEq

/-- Python's list.sort(key=score, reverse=True) is a stable descending sort;
insertionSort with this relation places earlier elements before equal-score
later ones, which matches that stability. -/
def sortQuotesDesc (l : List ScoredQuote) : List ScoredQuote :=
  List.insertionSort (fun a b => b.score ≤ a.score) l

/-- Embeds QuoteScorer._search_quotes, taking the rows the FTS query returned
as input.  An empty exact_phrase is falsy in Python; contains_exact_phrase
also rejects it, so modelling the phrase as Option only is faithful. -/
def search_quotes (s : QuoteScorer) (hits : List QuoteRow)
    (fts_query : List Char) (exact_phrase : Option (List Char)) :
    List ScoredQuote :=
  if fts_query = [] then []
  else
    sortQuotesDesc (hits.map (fun row =>
      let pb : ℚ := match exact_phrase with
        | some ph =>
          if ph ≠ [] ∧ contains_exact_phrase row.quote_text ph then
            s.phrase_bonus else 0
        | none => 0
      let base := -row.bm25_score
      { row := row, score := base + pb, phrase_bonus := pb,
        base_score := base }))

/-- One row of the breakdown-path FTS query (quotes_fts JOIN quotes JOIN
books).  The SELECT list fetches exactly these columns; in particular it
fetches neither a themes nor a journal column.  book_type is the CASE
expression's value, never NULL. -/
structure BreakdownRow where
  id : Nat
  book_id : Nat
  quote_text : List Char
  page : Option Int
  quote_keywords : Option (List Char)
  source_file : Option (List Char)
  base_bm25_score : ℚ
  book_title : Option (List Char)
  book_authors : Option (List Char)
  book_keywords : Option (List Char)
  summary : Option (List Char)
  publisher : Option (List Char)
  container : Option (List Char)
  book_type : List Char
deriving Repr, DecidableEq

/-- Python truthiness of quote_data.get(field): None and "" are falsy. -/
def truthyStr : Option (List Char) → Bool
  | some (_ :: _) => true
  | _ => false

/-- Python str.lower for the ASCII fragment. -/
def strLower (s : List Char) : List Char := s.map Char.toLower

/-- Python substring containment (needle in hay). -/
def strContainsSub (needle : List Char) : List Char → Bool
  | [] => needle.isEmpty
  | c :: t => if needle.isPrefixOf (c :: t) then true else strContainsSub needle t

/-- The field_mappings table of QuoteScorer._calculate_field_scores: for each
entry, how quote_data.get(data_field) reads the row, the weight_field name,
and how getattr reads FieldWeights.  The themes and journal entries read
dictionary keys that the breakdown SELECT never produces, so their accessors
are constantly none. -/
def fieldMappings :
    List ((BreakdownRow → Option (List Char)) × String × (FieldWeights → ℚ)) :=
  [(fun r => r.book_title, "book_title", fun w => w.book_title),
   (fun r => r.book_authors, "book_authors", fun w => w.book_authors),
   (fun r => r.quote_keywords, "quote_keywords", fun w => w.quote_keywords),
   (fun r => r.book_keywords, "book_keywords", fun w => w.book_keywords),
   (fun _ => none, "themes", fun w => w.themes),
   (fun r => r.summary, "summary", fun w => w.summary),
   (fun r => some r.book_type, "type", fun w => w.type),
   (fun r => r.publisher, "publisher", fun w => w.publisher),
   (fun _ => none, "journal", fun w => w.journal)]

/-- Embeds QuoteScorer._calculate_field_scores. -/
def calculate_field_scores (row : BreakdownRow) (query : List Char)
    (fw : Option FieldWeights) : ℚ × List (String × ℚ) :=
  match fw with
  | none => (0, [])
  | some w =>
    if query = [] then (0, [])
    else
      let ql := strLower query
      fieldMappings.foldl (fun acc m =>
        if truthyStr (m.1 row) ∧
            strContainsSub ql (strLower ((m.1 row).getD [])) then
          (acc.1 + m.2.2 w, acc.2 ++ [(m.2.1, m.2.2 w)])
        else acc) (0, [])

/-- A breakdown-path hit after scoring. -/
structure ScoredBQuote where
  row : BreakdownRow
  score : ℚ
  breakdown : ScoringBreakdown
deriving Repr, DecidableEq

/-- Stable descending sort of breakdown hits. -/
def sortBQuotesDesc (l : List ScoredBQuote) : List ScoredBQuote :=
  List.insertionSort (fun a b => b.score ≤ a.score) l

/-- Embeds QuoteScorer._search_quotes_with_breakdown, taking the rows the
FTS query returned as input. -/
def search_quotes_with_breakdown (s : QuoteScorer) (hits : List BreakdownRow)
    (fts_query : List Char) (exact_phrase : Option (List Char)) :
    List ScoredBQuote :=
  if fts_query = [] then []
  else
    let fw := s.scoring_config.map (fun c => c.field_weights)
    sortBQuotesDesc (hits.map (fun row =>
      let bm25_raw : ℚ := row.base_bm25_score
      let bm25_normalized : ℚ := if bm25_raw < 0 then -bm25_raw else bm25_raw
      let bm25_weight : ℚ := match s.scoring_config with
        | some c => c.bm25_weight
        | none => 1
      let bm25_weighted := bm25_normalized * bm25_weight
      let fs := calculate_field_scores row fts_query fw
      let pb : ℚ := match exact_phrase with
        | some ph =>
          if ph ≠ [] ∧ contains_exact_phrase row.quote_text ph then
            s.phrase_bonus else 0
        | none => 0
      let final := bm25_weighted + fs.1 + pb
      { row := row, score := final,
        breakdown :=
          { quote_id := row.id, bm25_raw := bm25_raw,
            bm25_normalized := bm25_normalized, field_score := fs.1,
            field_matches := fs.2, phrase_bonus := pb,
            final_score := final } }))

/-- One row of the book-metadata query in the grouping step. -/
structure BookRow where
  id : Nat
  title : Option (List Char)
  authors : Option (List Char)
  year : Option Int
  publisher : Option (List Char)
  container : Option (List Char)
  doi : Option (List Char)
  issn : Option (List Char)
  doc_keywords : Option (List Char)
  doc_summary : Option (List Char)
  source_path : Option (List Char)
  total_quotes : Nat
deriving Repr, DecidableEq

/-- books_lookup.get(book_id) over the fetched metadata rows. -/
def lookupBook (books : List BookRow) (i : Nat) : Option BookRow :=
  books.find? (fun b => b.id == i)

/-- Python round(x, 2).  Modelled with Mathlib's round on ℚ; Python's float
round uses ties-to-even, which can differ from this only on exact half-cent
values, and every property proved below uses only monotonicity, which both
share.  Rounding is applied when a quote is rendered into a response and,
via the stored response score, as the book-level sort key. -/
def roundScore (x : ℚ) : ℚ := (round (100 * x) : ℤ) / 100


/-- One entry of the book-grouping dict, generic in the retained quote type
(the fast path retains ScoredQuote, the breakdown path ScoredBQuote; the two
Python loops are otherwise identical).  The group keeps the retained scored
quotes; rendering to the response dict (which stores round(score, 2)) is the
separate projection quoteDisplay below, and the book-level sort key reads
exactly that rounded stored value. -/
structure GroupG (α : Type) where
  book_id : Nat
  book : Option BookRow
  hits_count : Nat
  top_quotes : List α
  total_book_quotes : Nat
deriving Repr, DecidableEq

/-- One iteration of the grouping loop of QuoteScorer._group_by_book (and of
_group_by_book_with_breakdown): a dict keyed by book_id with insertion order
is an association list; a missing key creates a group (hits 0, no quotes)
which the same iteration then updates to hits 1 and one retained quote. -/
def addQuoteG {α : Type} (bookOf : α → Nat) (books : List BookRow)
    (acc : List (GroupG α)) (q : α) : List (GroupG α) :=
  if acc.any (fun g => g.book_id == bookOf q) then
    acc.map (fun g =>
      if g.book_id == bookOf q then
        { g with hits_count := g.hits_count + 1,
                 top_quotes :=
                   if g.top_quotes.length < 5 then g.top_quotes ++ [q]
                   else g.top_quotes }
      else g)
  else
    acc ++ [{ book_id := bookOf q, book := lookupBook books (bookOf q),
              hits_count := 1, top_quotes := [q],
              total_book_quotes :=
                ((lookupBook books (bookOf q)).map
                  (fun b => b.total_quotes)).getD 0 }]

/-- The grouping loop over the sorted scored quotes. -/
def groupByBookG {α : Type} (bookOf : α → Nat) (books : List BookRow)
    (quotes : List α) : List (GroupG α) :=
  quotes.foldl (addQuoteG bookOf books) []

/-- Embeds QuoteScorer._group_by_book (insertion-ordered dict as a list). -/
def group_by_book (books : List BookRow) (quotes : List ScoredQuote) :
    List (GroupG ScoredQuote) :=
  groupByBookG (fun q => q.row.book_id) books quotes

/-- Embeds QuoteScorer._group_by_book_with_breakdown (the
breakdown.final_score = quote['score'] reassignment rewrites the value the
field already has, so it is the identity here). -/
def group_by_book_with_breakdown (books : List BookRow)
    (quotes : List ScoredBQuote) : List (GroupG ScoredBQuote) :=
  groupByBookG (fun q => q.row.book_id) books quotes

/-- The sort key of search_and_score over book groups:
x['top_quotes'][0]['score'] if x['top_quotes'] else 0; `scoreOf` reads the
score stored in the retained quote dict. -/
def groupKeyG {α : Type} (scoreOf : α → ℚ) (g : GroupG α) : ℚ :=
  match g.top_quotes with
  | [] => 0
  | q :: _ => scoreOf q

/-- sorted(book_results.values(), key=..., reverse=True): stable descending
sort by the given representative score. -/
def sortGroupsG {α : Type} (scoreOf : α → ℚ) (l : List (GroupG α)) :
    List (GroupG α) :=
  List.insertionSort (fun a b => groupKeyG scoreOf b ≤ groupKeyG scoreOf a) l

/-- The book-level sort key the fast path actually uses: the score stored in
the quote response dict is round(score, 2). -/
def fastDisplayScore (q : ScoredQuote) : ℚ := roundScore q.score

/-- The breakdown-path sort key: the stored response score is also rounded. -/
def bDisplayScore (q : ScoredBQuote) : ℚ := roundScore q.score

/-- The same keys before display rounding; used only to state claims. -/
def fastRawScore (q : ScoredQuote) : ℚ := q.score

/-- Breakdown-path unrounded score; used only to state claims. -/
def bRawScore (q : ScoredBQuote) : ℚ := q.score

/-- Result of search_and_score. -/
structure SearchResult where
  results : List (GroupG ScoredQuote)
  total : Nat
  offset : Nat
  limit : Nat
deriving Repr, DecidableEq

/-- Embeds QuoteScorer.search_and_score (the DB connection is replaced by the
row lists the two queries return). -/
def search_and_score (s : QuoteScorer) (books : List BookRow)
    (hits : List QuoteRow) (fts_query : List Char)
    (exact_phrase : Option (List Char)) (offset limit : Nat) : SearchResult :=
  let quotes := search_quotes s hits fts_query exact_phrase
  let sorted_books := sortGroupsG fastDisplayScore (group_by_book books quotes)
  { results := (sorted_books.drop offset).take limit,
    total := sorted_books.length, offset := offset, limit := limit }

/-- Result of search_with_breakdown. -/
structure SearchResultB where
  results : List (GroupG ScoredBQuote)
  total : Nat
deriving Repr, DecidableEq

/-- Embeds QuoteScorer.search_with_breakdown. -/
def search_with_breakdown (s : QuoteScorer) (books : List BookRow)
    (hits : List BreakdownRow) (fts_query : List Char)
    (exact_phrase : Option (List Char)) (limit : Nat) : SearchResultB :=
  let quotes := search_quotes_with_breakdown s hits fts_query exact_phrase
  let sorted_books :=
    sortGroupsG bDisplayScore (group_by_book_with_breakdown books quotes)
  { results := sorted_books.take limit, total := sorted_books.length }

/-- The quote response dict built inside _group_by_book: the score is stored
rounded to two decimals for display. -/
structure QuoteResponse where
  id : Nat
  quote_text : List Char
  page : Option Int
  keywords : Option (List Char)
  score : ℚ
deriving Repr, DecidableEq

/-- Rendering of a retained fast-path quote into its response dict. -/
def quoteDisplay (q : ScoredQuote) : QuoteResponse :=
  { id := q.row.id, quote_text := q.row.quote_text, page := q.row.page,
    keywords := q.row.keywords, score := roundScore q.score }

/-- In-memory state of the TuningManager. -/
structure TuningManager where
  current_config : ScoringConfig
  current_overrides : LocalOverrides
  current_profile_name : String
deriving Repr, DecidableEq

/-- Embeds TuningManager.update_config: the new configuration is assigned
without any validation. -/
def TuningManager.update_config (m : TuningManager) (c : ScoringConfig) :
    TuningManager :=
  { m with current_config := c }

/-- The profiles directory as a key-value store: a name maps to the parse
outcome of its file (none entry = no such file; some none = the file exists
but json.load / TuningProfile(**data) raises; some (some p) = deserializes
to p). -/
abbrev ProfileStore := List (String × Option TuningProfile)

/-- os.path.exists plus reading the file for a profile name. -/
def storeLookup (st : ProfileStore) (name : String) :
    Option (Option TuningProfile) :=
  (st.find? (fun e => e.1 == name)).map (fun e => e.2)

/-- Embeds TuningManager.load_profile: false when the file is missing, false
(state untouched) when deserialization raises, true with the profile made
active otherwise.  All exceptions are caught, so the function is total. -/
def TuningManager.load_profile (st : ProfileStore) (m : TuningManager)
    (name : String) : Bool × TuningManager :=
  match storeLookup st name with
  | none => (false, m)
  | some none => (false, m)
  | some (some p) =>
    (true, { current_config := p.config, current_overrides := p.overrides,
             current_profile_name := name })

/-- Book ids in order of first occurrence (the insertion order of the
grouping dict); helper for characterizing groupByBookG. -/
def firstOccs (l : List Nat) : List Nat :=
  l.foldl (fun acc b => if b ∈ acc then acc else acc ++ [b]) []

/-- Canonical form of the group a given book id ends up with. -/
def canonGroup {α : Type} (bookOf : α → Nat) (books : List BookRow)
    (qs : List α) (b : Nat) : GroupG α :=
  { book_id := b, book := lookupBook books b,
    hits_count := (qs.filter (fun q => bookOf q == b)).length,
    top_quotes := (qs.filter (fun q => bookOf q == b)).take 5,
    total_book_quotes :=
      ((lookupBook books b).map (fun bk => bk.total_quotes)).getD 0 }

/-- Canonical form of the whole grouping result. -/
def canonGroups {α : Type} (bookOf : α → Nat) (books : List BookRow)
    (qs : List α) : List (GroupG α) :=
  (firstOccs (qs.map bookOf)).map (canonGroup bookOf books qs)

/-- Whether the character just before the end of `l` is a word character,
starting from flag `p`; the scan flag hasMatch/subAux reach after consuming
`l`.  Used only in proofs about them. -/
def flagAfter (p : Bool) : List Char → Bool
  | [] => p
  | c :: cs => flagAfter (isWordChar c) cs

/-- Concrete fast-path row used by the C6 witness. -/
def w6row : QuoteRow :=
  { id := 1, book_id := 1, quote_text := ['a'], page := none,
    keywords := none, source_file := none, bm25_score := -2 }

/-- The scored quote the pipeline produces for w6row (no phrase). -/
def w6quote : ScoredQuote :=
  { row := w6row, score := 2, phrase_bonus := 0, base_score := 2 }

/-- The single book group of the C6 witness search. -/
def w6group : GroupG ScoredQuote :=
  { book_id := 1, book := none, hits_count := 1, top_quotes := [w6quote],
    total_book_quotes := 0 }

/-! ## General helper lemmas -/

theorem stripEnds_all_ws {q : List Char} (h : stripEnds q = []) :
    ∀ c ∈ q, isPySpace c = true := by
  intro c hc
  unfold stripEnds at h
  rw [List.reverse_eq_nil_iff] at h
  have h2 : ∀ x ∈ (q.dropWhile isPySpace).reverse, isPySpace x = true := by
    intro x hx
    exact List.dropWhile_eq_nil_iff.mp h x hx
  have h3 : ∀ x ∈ q.dropWhile isPySpace, isPySpace x = true := by
    intro x hx
    exact h2 x (List.mem_reverse.mpr hx)
  have h4 := List.takeWhile_append_dropWhile (p := isPySpace) (l := q)
  rw [← h4] at hc
  rcases List.mem_append.mp hc with h5 | h5
  · exact List.mem_takeWhile_imp h5
  · exact h3 _ h5

theorem extractFirstQuotedPhrase_of_ws {q : List Char}
    (h : ∀ c ∈ q, isPySpace c = true) : extractFirstQuotedPhrase q = none := by
  induction q with
  | nil => rfl
  | cons c cs ih =>
    have hc : isPySpace c = true := h c (by simp)
    have hcq : c ≠ '"' := by
      intro he
      rw [he] at hc
      simp [isPySpace] at hc
    unfold extractFirstQuotedPhrase
    rw [if_neg hcq]
    exact ih (fun d hd => h d (by simp [hd]))

/-! ## Claim C3 -/

/-- C3 counterexample: the claim says a configuration with a negative weight
is rejected at configuration-set time and never becomes active.  In the code
TuningManager.update_config performs no validation at all: installing a
configuration whose phrase_bonus is -1 makes exactly that configuration the
active one. -/
theorem claim3_counterexample :
    (TuningManager.update_config
        { current_config := {}, current_overrides := {},
          current_profile_name := "default" }
        { phrase_bonus := -1 }).current_config =
      ({ phrase_bonus := -1 } : ScoringConfig) ∧
    ({ phrase_bonus := -1 } : ScoringConfig).phrase_bonus < 0 :=
  ⟨rfl, by norm_num⟩

/-- C3 amended: configuration set-time performs no validation; update_config
installs any configuration verbatim (negative weights included), so a
negative-weight configuration does become the active configuration. -/
theorem claim3_amended_no_validation (m : TuningManager) (c : ScoringConfig) :
    (m.update_config c).current_config = c := rfl

/-! ## Claim C8 -/

/-- C8: activateProfile (TuningManager.load_profile) returns false and leaves
the manager untouched when the named profile file does not exist or its data
cannot be deserialized, and returns true with the profile's configuration
made active (and the active profile name recorded) exactly when the stored
data deserializes. -/
theorem claim8_activate_profile (st : ProfileStore) (m : TuningManager)
    (name : String) :
    (storeLookup st name = none → m.load_profile st name = (false, m)) ∧
    (storeLookup st name = some none → m.load_profile st name = (false, m)) ∧
    (∀ p : TuningProfile, storeLookup st name = some (some p) →
      m.load_profile st name =
        (true, { current_config := p.config, current_overrides := p.overrides,
                 current_profile_name := name })) := by
  refine ⟨fun h => ?_, fun h => ?_, fun p h => ?_⟩ <;>
    · unfold TuningManager.load_profile
      rw [h]

/-- C8 witness: a store with one good profile and one undeserializable file;
all three outcomes realized through claim8_activate_profile. -/
theorem claim8_activate_profile_witness :
    (TuningManager.load_profile
        [("p", some { name := "p", config := { bm25_weight := 7 } }),
         ("broken", none)]
        { current_config := {}, current_overrides := {},
          current_profile_name := "default" } "p" =
      (true, { current_config := { bm25_weight := 7 },
               current_overrides := {}, current_profile_name := "p" })) ∧
    (TuningManager.load_profile
        [("p", some { name := "p", config := { bm25_weight := 7 } }),
         ("broken", none)]
        { current_config := {}, current_overrides := {},
          current_profile_name := "default" } "broken" =
      (false, { current_config := {}, current_overrides := {},
                current_profile_name := "default" })) ∧
    (TuningManager.load_profile
        [("p", some { name := "p", config := { bm25_weight := 7 } }),
         ("broken", none)]
        { current_config := {}, current_overrides := {},
          current_profile_name := "default" } "missing" =
      (false, { current_config := {}, current_overrides := {},
                current_profile_name := "default" })) :=
  ⟨(claim8_activate_profile _ _ _).2.2
      { name := "p", config := { bm25_weight := 7 } } rfl,
   (claim8_activate_profile _ _ _).2.1 rfl,
   (claim8_activate_profile _ _ _).1 rfl⟩

/-! ## Claim C4 -/

/-- C4 counterexample: the claim says every character outside
[A-Za-z0-9_\s'"*()-] plus the operator words is rejected, but the validator's
character class [^\w\s\'"*()AND|OR|NOT-] also admits the pipe character
(the spelling AND|OR|NOT inside a class contributes its characters, among
them the bar), so the input a|b is accepted although the bar is outside the
claimed set. -/
theorem claim4_counterexample :
    validate_query ['a', '|', 'b'] = true ∧ specAllowedChar '|' = false := by
  decide

/-- C4 amended: validate_query returns false exactly when the text is empty
or whitespace-only, longer than 1000 characters, has an odd number of quote
characters, or contains a character outside \w, \s and the punctuation set
of the class — which, beyond the claimed set, also admits the bar character
contributed by the AND|OR|NOT spelling. -/
theorem claim4_amended_validate_iff (q : List Char) :
    validate_query q = false ↔
      (stripEnds q = [] ∨ 1000 < q.length ∨ q.count '"' % 2 ≠ 0 ∨
        ∃ c ∈ q, validAllowedChar c = false) := by
  unfold validate_query
  split_ifs with h1 h2 h3 h4 <;> simp_all [List.any_eq_true]

/-! ## Claim C9 -/

/-- C9: the exact phrase returned by parse is the first quoted substring of
the raw query, quotes stripped and case preserved: whenever the quoted-phrase
regex finds p, parse returns exactly p, and when it finds nothing (in
particular for queries without quotes) parse returns none. -/
theorem claim9_exact_phrase :
    (∀ q p, extractFirstQuotedPhrase q = some p →
      (parse q).exact_phrase = some p) ∧
    (∀ q, extractFirstQuotedPhrase q = none →
      (parse q).exact_phrase = none) := by
  constructor
  · intro q p h
    unfold parse
    split_ifs with hs
    · rw [extractFirstQuotedPhrase_of_ws (stripEnds_all_ws hs)] at h
      exact absurd h (by simp)
    · exact h
  · intro q h
    unfold parse
    split_ifs with hs
    · rfl
    · exact h

/-- C9 witness: a query with a quoted phrase (case preserved) and one
without, through claim9_exact_phrase. -/
theorem claim9_exact_phrase_witness :
    (parse ['s', 'a', 'y', ' ', '"', 'H', 'i', '"']).exact_phrase =
      some ['H', 'i'] ∧
    (parse ['n', 'o', ' ', 'q', 'u', 'o', 't', 'e']).exact_phrase = none :=
  ⟨claim9_exact_phrase.1 _ _ (by decide), claim9_exact_phrase.2 _ (by decide)⟩

/-! ## Claim C1 -/

/-- C1 counterexample: the claim asserts the score formula
baseNormalized * baseRelevanceWeight + fieldScore + phraseBonus holds on the
fast path too.  With bm25_weight = 2 and one hit of raw rank -1 (no phrase,
no matching fields, so the claimed fieldScore and phraseBonus are 0, and
baseNormalized = -(-1) = 1), the claimed score is -(-1)*2 + 0 + 0 = 2, but
the fast path ignores the weight (and fields) entirely and yields 1. -/
theorem claim1_counterexample :
    (search_quotes (QuoteScorer.update_config {} (some { bm25_weight := 2 }))
        [{ id := 1, book_id := 1, quote_text := ['q'], page := none,
           keywords := none, source_file := none, bm25_score := -1 }]
        ['x'] none).map (fun q => q.score) = [1] ∧
    (1 : ℚ) ≠ -(-1 : ℚ) * 2 + 0 + 0 := by
  constructor
  · norm_num [search_quotes, sortQuotesDesc, List.insertionSort,
      List.orderedInsert, QuoteScorer.update_config]
  · norm_num

/-- C1 amended: the breakdown path satisfies the claimed formula exactly
(finalScore = bm25_normalized * bm25_weight + fieldScore + phraseBonus with
bm25_normalized the sign-normalized raw statistic), while the fast path
computes finalScore = -raw + phraseBonus: it applies neither the base
relevance weight nor any field score, and its base is plain negation rather
than the sign normalization. -/
theorem claim1_amended_scores (s : QuoteScorer) (hitsB : List BreakdownRow)
    (hitsF : List QuoteRow) (fq : List Char) (ph : Option (List Char)) :
    (∀ q ∈ search_quotes_with_breakdown s hitsB fq ph,
      q.breakdown.bm25_raw = q.row.base_bm25_score ∧
      q.breakdown.bm25_normalized =
        (if q.row.base_bm25_score < 0 then -q.row.base_bm25_score
         else q.row.base_bm25_score) ∧
      q.score = q.breakdown.bm25_normalized *
          (match s.scoring_config with | some c => c.bm25_weight | none => 1) +
        q.breakdown.field_score + q.breakdown.phrase_bonus ∧
      q.breakdown.final_score = q.score) ∧
    (∀ q ∈ search_quotes s hitsF fq ph,
      q.score = -q.row.bm25_score + q.phrase_bonus) := by
  constructor
  · intro q hq
    by_cases hfq : fq = []
    · simp [search_quotes_with_breakdown, hfq] at hq
    · rw [search_quotes_with_breakdown, if_neg hfq] at hq
      rw [sortBQuotesDesc, List.mem_insertionSort] at hq
      obtain ⟨row, _, rfl⟩ := List.mem_map.mp hq
      exact ⟨rfl, rfl, rfl, rfl⟩
  · intro q hq
    by_cases hfq : fq = []
    · simp [search_quotes, hfq] at hq
    · rw [search_quotes, if_neg hfq] at hq
      rw [sortQuotesDesc, List.mem_insertionSort] at hq
      obtain ⟨row, _, rfl⟩ := List.mem_map.mp hq
      rfl

/-- C1 amended witness: one fast-path hit with raw rank -2 and no phrase,
whose score is -(-2) + 0, via claim1_amended_scores. -/
theorem claim1_amended_scores_witness :
    ({ row := { id := 1, book_id := 1, quote_text := ['q'], page := none,
                keywords := none, source_file := none, bm25_score := -2 },
       score := - -2 + 0, phrase_bonus := 0,
       base_score := - -2 } : ScoredQuote).score =
      -({ row := { id := 1, book_id := 1, quote_text := ['q'], page := none,
                   keywords := none, source_file := none, bm25_score := -2 },
          score := - -2 + 0, phrase_bonus := 0,
          base_score := - -2 } : ScoredQuote).row.bm25_score +
        ({ row := { id := 1, book_id := 1, quote_text := ['q'], page := none,
                    keywords := none, source_file := none, bm25_score := -2 },
           score := - -2 + 0, phrase_bonus := 0,
           base_score := - -2 } : ScoredQuote).phrase_bonus := by
  refine (claim1_amended_scores {} []
      [{ id := 1, book_id := 1, quote_text := ['q'], page := none,
         keywords := none, source_file := none, bm25_score := -2 }]
      ['x'] none).2 _ ?_
  simp [search_quotes, sortQuotesDesc, List.insertionSort, List.orderedInsert]

/-! ## Claim C10 -/

theorem calculate_field_scores_congr (row : BreakdownRow) (q : List Char)
    (w1 w2 : FieldWeights)
    (h2 : w1.quote_keywords = w2.quote_keywords)
    (h3 : w1.book_keywords = w2.book_keywords)
    (h4 : w1.summary = w2.summary)
    (h5 : w1.book_title = w2.book_title)
    (h6 : w1.book_authors = w2.book_authors)
    (h7 : w1.type = w2.type)
    (h8 : w1.publisher = w2.publisher) :
    calculate_field_scores row q (some w1) =
      calculate_field_scores row q (some w2) := by
  unfold calculate_field_scores fieldMappings
  simp only [List.foldl_cons, List.foldl_nil, truthyStr, Bool.false_eq_true,
    false_and, if_false]
  rw [h2, h3, h4, h5, h6, h7, h8]

/-- C10: the themes and journal field weights never influence the breakdown
search: for two configurations equal except possibly at themes and journal,
search_with_breakdown returns structurally identical results (scores, field
matches, breakdowns, grouping and ordering) on every input, because the
breakdown query fetches no themes or journal column, so those two weights
can never be matched or added. -/
theorem claim10_themes_journal_inert (w1 w2 : FieldWeights)
    (h1 : w1.quote_text = w2.quote_text)
    (h2 : w1.quote_keywords = w2.quote_keywords)
    (h3 : w1.book_keywords = w2.book_keywords)
    (h4 : w1.summary = w2.summary)
    (h5 : w1.book_title = w2.book_title)
    (h6 : w1.book_authors = w2.book_authors)
    (h7 : w1.type = w2.type)
    (h8 : w1.publisher = w2.publisher)
    (bw pb : ℚ) (s : QuoteScorer) (books : List BookRow)
    (hits : List BreakdownRow) (fq : List Char) (ph : Option (List Char))
    (limit : Nat) :
    search_with_breakdown
        (QuoteScorer.update_config s
          (some { bm25_weight := bw, phrase_bonus := pb, field_weights := w1 }))
        books hits fq ph limit =
      search_with_breakdown
        (QuoteScorer.update_config s
          (some { bm25_weight := bw, phrase_bonus := pb, field_weights := w2 }))
        books hits fq ph limit := by
  have hq : search_quotes_with_breakdown
      (QuoteScorer.update_config s
        (some { bm25_weight := bw, phrase_bonus := pb, field_weights := w1 }))
      hits fq ph =
    search_quotes_with_breakdown
      (QuoteScorer.update_config s
        (some { bm25_weight := bw, phrase_bonus := pb, field_weights := w2 }))
      hits fq ph := by
    by_cases hfq : fq = []
    · simp [search_quotes_with_breakdown, hfq]
    · rw [search_quotes_with_breakdown, search_quotes_with_breakdown,
        if_neg hfq, if_neg hfq]
      apply congrArg sortBQuotesDesc
      apply List.map_congr_left
      intro row _
      have hcfs := calculate_field_scores_congr row fq w1 w2 h2 h3 h4 h5 h6 h7 h8
      simp only [QuoteScorer.update_config, Option.map]
      rw [hcfs]
  unfold search_with_breakdown
  rw [hq]

/-- C10 witness: two configurations differing only in themes (99 vs 0.6) and
journal (-7 vs 0.3) weights give identical breakdown results on a concrete
hit, via claim10_themes_journal_inert. -/
theorem claim10_themes_journal_inert_witness :
    search_with_breakdown
        (QuoteScorer.update_config {}
          (some { bm25_weight := 1, phrase_bonus := 2, field_weights := {} }))
        []
        [{ id := 1, book_id := 1, quote_text := ['q'], page := none,
           quote_keywords := none, source_file := none, base_bm25_score := -1,
           book_title := some ['q'], book_authors := none, book_keywords := none,
           summary := none, publisher := none, container := none,
           book_type := ['b', 'o', 'o', 'k'] }]
        ['q'] none 5 =
      search_with_breakdown
        (QuoteScorer.update_config {}
          (some { bm25_weight := 1, phrase_bonus := 2,
                  field_weights := { themes := 99, journal := -7 } }))
        []
        [{ id := 1, book_id := 1, quote_text := ['q'], page := none,
           quote_keywords := none, source_file := none, base_bm25_score := -1,
           book_title := some ['q'], book_authors := none, book_keywords := none,
           summary := none, publisher := none, container := none,
           book_type := ['b', 'o', 'o', 'k'] }]
        ['q'] none 5 :=
  claim10_themes_journal_inert {} { themes := 99, journal := -7 }
    rfl rfl rfl rfl rfl rfl rfl rfl 1 2 {} [] _ ['q'] none 5

/-! ## Grouping lemmas shared by the ordering, grouping and pagination claims -/

theorem firstOccs_append (l : List Nat) (b : Nat) :
    firstOccs (l ++ [b]) =
      if b ∈ firstOccs l then firstOccs l else firstOccs l ++ [b] := by
  unfold firstOccs
  rw [List.foldl_append]
  rfl

theorem mem_firstOccs (l : List Nat) : ∀ a, a ∈ firstOccs l ↔ a ∈ l := by
  induction l using List.reverseRecOn with
  | nil => intro a; simp [firstOccs]
  | append_singleton xs x ih =>
    intro a
    rw [firstOccs_append]
    split_ifs with h
    · rw [ih]
      have hx : x ∈ xs := (ih x).mp h
      simp only [List.mem_append, List.mem_singleton]
      constructor
      · exact Or.inl
      · rintro (h1 | rfl)
        · exact h1
        · exact hx
    · simp only [List.mem_append, List.mem_singleton, ih]

theorem take_five_append {β : Type} (xs : List β) (x : β) :
    (xs ++ [x]).take 5 =
      if (xs.take 5).length < 5 then xs.take 5 ++ [x] else xs.take 5 := by
  by_cases h : xs.length < 5
  · have h1 : xs.length ≤ 5 := le_of_lt h
    have h2 : (xs ++ [x]).length ≤ 5 := by
      simp only [List.length_append, List.length_singleton]
      omega
    rw [List.take_of_length_le h1, List.take_of_length_le h2, if_pos h]
  · have h5 : 5 ≤ xs.length := not_lt.mp h
    rw [List.take_append_of_le_length h5]
    have hlen : (xs.take 5).length = 5 := by
      rw [List.length_take]
      omega
    rw [if_neg (by omega)]

theorem canonGroups_any {α : Type} (bookOf : α → Nat) (books : List BookRow)
    (qs : List α) (b : Nat) :
    ((canonGroups bookOf books qs).any (fun g => g.book_id == b) = true) ↔
      b ∈ qs.map bookOf := by
  unfold canonGroups
  rw [List.any_eq_true]
  constructor
  · rintro ⟨g, hg, hgb⟩
    obtain ⟨b', hb', rfl⟩ := List.mem_map.mp hg
    have hbb : b' = b := by simpa [canonGroup] using hgb
    rw [← hbb]
    exact (mem_firstOccs _ _).mp hb'
  · intro hmem
    exact ⟨canonGroup bookOf books qs b,
      List.mem_map_of_mem _ ((mem_firstOccs _ _).mpr hmem),
      by simp [canonGroup]⟩

theorem filter_book_append {α : Type} (bookOf : α → Nat) (qs : List α) (q : α)
    (b : Nat) :
    (qs ++ [q]).filter (fun x => bookOf x == b) =
      qs.filter (fun x => bookOf x == b) ++
        (if bookOf q = b then [q] else []) := by
  rw [List.filter_append]
  congr 1
  by_cases hq : bookOf q = b
  · simp [hq]
  · simp [List.filter_cons, hq]

theorem groupByBookG_eq_canon {α : Type} (bookOf : α → Nat)
    (books : List BookRow) (qs : List α) :
    groupByBookG bookOf books qs = canonGroups bookOf books qs := by
  induction qs using List.reverseRecOn with
  | nil => rfl
  | append_singleton qs q ih =>
    have hstep : groupByBookG bookOf books (qs ++ [q]) =
        addQuoteG bookOf books (groupByBookG bookOf books qs) q := by
      unfold groupByBookG
      rw [List.foldl_append]
      rfl
    rw [hstep, ih]
    have hmap : (qs ++ [q]).map bookOf = qs.map bookOf ++ [bookOf q] := by
      rw [List.map_append]
      rfl
    by_cases hb : bookOf q ∈ qs.map bookOf
    · -- the book already has a group: its dict entry is updated in place
      rw [addQuoteG, if_pos ((canonGroups_any bookOf books qs (bookOf q)).mpr hb)]
      unfold canonGroups
      rw [hmap, firstOccs_append,
        if_pos ((mem_firstOccs (qs.map bookOf) (bookOf q)).mpr hb),
        List.map_map]
      apply List.map_congr_left
      intro b' hb'
      simp only [Function.comp_apply]
      by_cases hbb : b' = bookOf q
      · have hfilter := filter_book_append bookOf qs q b'
        rw [if_pos hbb.symm] at hfilter
        have hcond : ((canonGroup bookOf books qs b').book_id == bookOf q)
            = true := by
          simp [canonGroup, hbb]
        rw [if_pos hcond]
        simp only [canonGroup, hfilter, take_five_append, List.length_append,
          List.length_singleton]
      · have hfilter := filter_book_append bookOf qs q b'
        rw [if_neg (fun he => hbb he.symm), List.append_nil] at hfilter
        have hcond : ((canonGroup bookOf books qs b').book_id == bookOf q)
            = false := by
          simp [canonGroup, hbb]
        rw [if_neg (by simp [hcond])]
        simp only [canonGroup, hfilter]
    · -- first hit for this book: a fresh group is appended at the end
      rw [addQuoteG,
        if_neg (fun h => hb ((canonGroups_any bookOf books qs (bookOf q)).mp h))]
      unfold canonGroups
      rw [hmap, firstOccs_append,
        if_neg (fun h => hb ((mem_firstOccs (qs.map bookOf) (bookOf q)).mp h)),
        List.map_append]
      have hnil : qs.filter (fun x => bookOf x == bookOf q) = [] := by
        rw [List.filter_eq_nil_iff]
        intro x hx hxb
        exact hb (List.mem_map.mpr ⟨x, hx, by simpa using hxb⟩)
      have hfilter := filter_book_append bookOf qs q (bookOf q)
      rw [if_pos rfl, hnil, List.nil_append] at hfilter
      congr 1
      · apply List.map_congr_left
        intro b' hb'
        have hb'm : b' ∈ qs.map bookOf := (mem_firstOccs _ _).mp hb'
        have hbb : b' ≠ bookOf q := fun he => hb (he ▸ hb'm)
        have hf := filter_book_append bookOf qs q b'
        rw [if_neg (fun he => hbb he.symm), List.append_nil] at hf
        simp [canonGroup, hf]
      · simp [canonGroup, hfilter]

theorem groupByBookG_append {α : Type} (bookOf : α → Nat)
    (books : List BookRow) (qs : List α) (q : α) :
    groupByBookG bookOf books (qs ++ [q]) =
      addQuoteG bookOf books (groupByBookG bookOf books qs) q := by
  unfold groupByBookG
  rw [List.foldl_append]
  rfl

theorem filter_book_ne_nil {α : Type} (bookOf : α → Nat) (qs : List α)
    (b : Nat) (hb : b ∈ qs.map bookOf) :
    qs.filter (fun x => bookOf x == b) ≠ [] := by
  obtain ⟨x, hx, hxb⟩ := List.mem_map.mp hb
  exact List.ne_nil_of_mem (List.mem_filter.mpr ⟨hx, by simp [hxb]⟩)

theorem groupKeyG_of_top_ne_nil {α : Type} (scoreOf : α → ℚ) (g : GroupG α)
    (q : α) (hne : g.top_quotes ≠ []) :
    groupKeyG scoreOf
        { g with hits_count := g.hits_count + 1,
                 top_quotes :=
                   if g.top_quotes.length < 5 then g.top_quotes ++ [q]
                   else g.top_quotes } =
      groupKeyG scoreOf g := by
  rcases htop : g.top_quotes with _ | ⟨t0, ts⟩
  · exact absurd htop hne
  · unfold groupKeyG
    rw [htop]
    split_ifs <;> rfl

theorem groupByBookG_key_sorted {α : Type} (bookOf : α → Nat)
    (scoreOf : α → ℚ) (books : List BookRow) (qs : List α)
    (hs : List.Pairwise (fun a b => scoreOf b ≤ scoreOf a) qs) :
    List.Pairwise
      (fun g1 g2 : GroupG α => groupKeyG scoreOf g2 ≤ groupKeyG scoreOf g1)
      (groupByBookG bookOf books qs) := by
  induction qs using List.reverseRecOn with
  | nil => simp [groupByBookG]
  | append_singleton qs q ih =>
    have hs1 : List.Pairwise (fun a b => scoreOf b ≤ scoreOf a) qs :=
      hs.sublist (List.sublist_append_left qs [q])
    have hlast : ∀ x ∈ qs, scoreOf q ≤ scoreOf x := by
      intro x hx
      exact (List.pairwise_append.mp hs).2.2 x hx q (by simp)
    rw [groupByBookG_append, addQuoteG]
    split_ifs with hany
    · -- in-place update keeps every representative score
      refine (List.pairwise_map.mpr ?_)
      refine (ih hs1).imp_of_mem ?_
      intro g1 g2 hg1 hg2 hkey
      have hkeep : ∀ g ∈ groupByBookG bookOf books qs,
          groupKeyG scoreOf
            (if g.book_id == bookOf q then
              { g with hits_count := g.hits_count + 1,
                       top_quotes :=
                         if g.top_quotes.length < 5 then g.top_quotes ++ [q]
                         else g.top_quotes }
             else g) = groupKeyG scoreOf g := by
        intro g hg
        by_cases hgb : (g.book_id == bookOf q) = true
        · -- the updated group: its top list is nonempty, head unchanged
          rw [if_pos hgb]
          rw [groupByBookG_eq_canon] at hg
          obtain ⟨b, hbmem, rfl⟩ := List.mem_map.mp hg
          have hbq : b ∈ qs.map bookOf := (mem_firstOccs _ _).mp hbmem
          have hne : (canonGroup bookOf books qs b).top_quotes ≠ [] := by
            simp only [canonGroup]
            intro hcon
            have := filter_book_ne_nil bookOf qs b hbq
            rcases hflt : qs.filter (fun x => bookOf x == b) with _ | ⟨f0, ft⟩
            · exact this hflt
            · rw [hflt] at hcon
              simp at hcon
          exact groupKeyG_of_top_ne_nil scoreOf _ q hne
        · rw [if_neg hgb]
      rw [hkeep g1 hg1, hkeep g2 hg2]
      exact hkey
    · -- fresh group appended at the end: its score is the smallest so far
      rw [List.pairwise_append]
      refine ⟨ih hs1, by simp, ?_⟩
      intro g hg g' hg'
      have hg'e : g' =
          { book_id := bookOf q,
            book := lookupBook books (bookOf q), hits_count := 1,
            top_quotes := [q],
            total_book_quotes :=
              ((lookupBook books (bookOf q)).map
                (fun b => b.total_quotes)).getD 0 } := by
        simpa using hg'
      rw [groupByBookG_eq_canon] at hg
      obtain ⟨b, hbmem, rfl⟩ := List.mem_map.mp hg
      have hbq : b ∈ qs.map bookOf := (mem_firstOccs _ _).mp hbmem
      rcases hflt : qs.filter (fun x => bookOf x == b) with _ | ⟨f0, ft⟩
      · exact absurd hflt (filter_book_ne_nil bookOf qs b hbq)
      · have hf0 : f0 ∈ qs :=
          List.mem_of_mem_filter (hflt ▸ List.mem_cons_self f0 ft)
        have hkey1 : groupKeyG scoreOf (canonGroup bookOf books qs b) =
            scoreOf f0 := by
          unfold groupKeyG canonGroup
          rw [hflt]
          rfl
        have hkey2 : groupKeyG scoreOf g' = scoreOf q := by
          rw [hg'e]
          rfl
        rw [hkey1, hkey2]
        exact hlast f0 hf0

theorem roundScore_mono {a b : ℚ} (h : a ≤ b) : roundScore a ≤ roundScore b := by
  unfold roundScore
  have h1 : round (100 * a) ≤ round (100 * b) := by
    rw [round_eq, round_eq]
    exact Int.floor_le_floor (by linarith)
  have h2 : ((round (100 * a) : ℤ) : ℚ) ≤ ((round (100 * b) : ℤ) : ℚ) := by
    exact_mod_cast h1
  linarith

theorem roundScore_zero : roundScore 0 = 0 := by
  unfold roundScore
  norm_num

theorem groupKeyG_display_fast (g : GroupG ScoredQuote) :
    groupKeyG fastDisplayScore g = roundScore (groupKeyG fastRawScore g) := by
  unfold groupKeyG fastDisplayScore fastRawScore
  rcases g.top_quotes with _ | ⟨t, ts⟩
  · rw [roundScore_zero]
  · rfl

theorem groupKeyG_display_b (g : GroupG ScoredBQuote) :
    groupKeyG bDisplayScore g = roundScore (groupKeyG bRawScore g) := by
  unfold groupKeyG bDisplayScore bRawScore
  rcases g.top_quotes with _ | ⟨t, ts⟩
  · rw [roundScore_zero]
  · rfl

instance : IsTotal ScoredQuote (fun a b => b.score ≤ a.score) :=
  ⟨fun a b => le_total b.score a.score⟩

instance : IsTrans ScoredQuote (fun a b => b.score ≤ a.score) :=
  ⟨fun _ _ _ h1 h2 => le_trans h2 h1⟩

instance : IsTotal ScoredBQuote (fun a b => b.score ≤ a.score) :=
  ⟨fun a b => le_total b.score a.score⟩

instance : IsTrans ScoredBQuote (fun a b => b.score ≤ a.score) :=
  ⟨fun _ _ _ h1 h2 => le_trans h2 h1⟩

theorem search_quotes_sorted (s : QuoteScorer) (hits : List QuoteRow)
    (fq : List Char) (ph : Option (List Char)) :
    List.Sorted (fun a b => b.score ≤ a.score) (search_quotes s hits fq ph) := by
  unfold search_quotes
  split_ifs with h
  · simp
  · exact List.sorted_insertionSort _ _

theorem search_quotes_with_breakdown_sorted (s : QuoteScorer)
    (hits : List BreakdownRow) (fq : List Char) (ph : Option (List Char)) :
    List.Sorted (fun a b => b.score ≤ a.score)
      (search_quotes_with_breakdown s hits fq ph) := by
  unfold search_quotes_with_breakdown
  split_ifs with h
  · simp
  · exact List.sorted_insertionSort _ _

theorem sortGroups_display_eq_raw {α : Type} (displayOf rawOf : α → ℚ)
    (hdisp : ∀ g : GroupG α,
      groupKeyG displayOf g = roundScore (groupKeyG rawOf g))
    (l : List (GroupG α))
    (hsorted : List.Pairwise
      (fun g1 g2 => groupKeyG rawOf g2 ≤ groupKeyG rawOf g1) l) :
    sortGroupsG displayOf l = sortGroupsG rawOf l := by
  have hsr : List.Sorted (fun g1 g2 : GroupG α =>
      groupKeyG rawOf g2 ≤ groupKeyG rawOf g1) l := hsorted
  have hsd : List.Sorted (fun g1 g2 : GroupG α =>
      groupKeyG displayOf g2 ≤ groupKeyG displayOf g1) l := by
    refine hsorted.imp_of_mem ?_
    intro g1 g2 _ _ hk
    rw [hdisp g1, hdisp g2]
    exact roundScore_mono hk
  unfold sortGroupsG
  rw [List.Sorted.insertionSort_eq hsd, List.Sorted.insertionSort_eq hsr]

/-! ## Claim C2 -/

/-- C2: rounding is applied only for display, never for sort order.  The
scored-hit lists of both paths are ordered by the unrounded finalScore, and
the book-group sort by the stored (rounded) representative score produces
exactly the list the unrounded representative score would produce, on every
input. -/
theorem claim2_rounding_never_sorts (s : QuoteScorer) (books : List BookRow)
    (hitsF : List QuoteRow) (hitsB : List BreakdownRow) (fq : List Char)
    (ph : Option (List Char)) :
    List.Sorted (fun a b : ScoredQuote => b.score ≤ a.score)
      (search_quotes s hitsF fq ph) ∧
    List.Sorted (fun a b : ScoredBQuote => b.score ≤ a.score)
      (search_quotes_with_breakdown s hitsB fq ph) ∧
    sortGroupsG fastDisplayScore
        (group_by_book books (search_quotes s hitsF fq ph)) =
      sortGroupsG fastRawScore
        (group_by_book books (search_quotes s hitsF fq ph)) ∧
    sortGroupsG bDisplayScore
        (group_by_book_with_breakdown books
          (search_quotes_with_breakdown s hitsB fq ph)) =
      sortGroupsG bRawScore
        (group_by_book_with_breakdown books
          (search_quotes_with_breakdown s hitsB fq ph)) := by
  refine ⟨search_quotes_sorted s hitsF fq ph,
    search_quotes_with_breakdown_sorted s hitsB fq ph, ?_, ?_⟩
  · refine sortGroups_display_eq_raw _ _ groupKeyG_display_fast _ ?_
    have hgs := groupByBookG_key_sorted (fun q : ScoredQuote => q.row.book_id)
      (fun q : ScoredQuote => q.score) books (search_quotes s hitsF fq ph)
      (search_quotes_sorted s hitsF fq ph)
    exact hgs
  · refine sortGroups_display_eq_raw _ _ groupKeyG_display_b _ ?_
    have hgs := groupByBookG_key_sorted (fun q : ScoredBQuote => q.row.book_id)
      (fun q : ScoredBQuote => q.score) books
      (search_quotes_with_breakdown s hitsB fq ph)
      (search_quotes_with_breakdown_sorted s hitsB fq ph)
    exact hgs

/-! ## Claim C6 -/

theorem groupByBookG_props {α : Type} (bookOf : α → Nat)
    (books : List BookRow) (qs : List α) :
    ∀ g ∈ groupByBookG bookOf books qs,
      g.top_quotes = (qs.filter (fun q => bookOf q == g.book_id)).take 5 ∧
      g.hits_count = (qs.filter (fun q => bookOf q == g.book_id)).length := by
  intro g hg
  rw [groupByBookG_eq_canon] at hg
  obtain ⟨b, hbmem, rfl⟩ := List.mem_map.mp hg
  exact ⟨rfl, rfl⟩

/-- C6: in every search result (fast path), every document group retains at
most 5 top quotes, these are exactly the first five of the document's hits in
the globally sorted order (its highest-scoring hits, since the quote list is
sorted by score), and hits_count counts every matching hit of the document,
so it is at least the number of retained top quotes. -/
theorem claim6_grouping_invariant (s : QuoteScorer) (books : List BookRow)
    (hits : List QuoteRow) (fq : List Char) (ph : Option (List Char))
    (offset limit : Nat) :
    ∀ g ∈ (search_and_score s books hits fq ph offset limit).results,
      g.top_quotes.length ≤ 5 ∧
      g.top_quotes.length ≤ g.hits_count ∧
      g.top_quotes =
        ((search_quotes s hits fq ph).filter
          (fun q => q.row.book_id == g.book_id)).take 5 ∧
      g.hits_count =
        ((search_quotes s hits fq ph).filter
          (fun q => q.row.book_id == g.book_id)).length := by
  intro g hg
  have hg1 : g ∈ sortGroupsG fastDisplayScore
      (group_by_book books (search_quotes s hits fq ph)) := by
    have h2 := List.mem_of_mem_take hg
    exact List.mem_of_mem_drop h2
  have hg2 : g ∈ group_by_book books (search_quotes s hits fq ph) :=
    (List.mem_insertionSort _).mp hg1
  have hp := groupByBookG_props (fun q : ScoredQuote => q.row.book_id) books
    (search_quotes s hits fq ph) g hg2
  refine ⟨?_, ?_, hp.1, hp.2⟩
  · rw [hp.1, List.length_take]
    exact min_le_left _ _
  · rw [hp.1, hp.2, List.length_take]
    exact min_le_right _ _

/-- C6 witness: a concrete one-hit search whose single group w6group is in
the results; the cap and hits_count bound hold for it, via
claim6_grouping_invariant. -/
theorem claim6_grouping_invariant_witness :
    w6group.top_quotes.length ≤ 5 ∧
    w6group.top_quotes.length ≤ w6group.hits_count := by
  have hmem : w6group ∈
      (search_and_score {} [] [w6row] ['x'] none 0 20).results := by
    have he : (search_and_score {} [] [w6row] ['x'] none 0 20).results =
        [w6group] := by
      norm_num [search_and_score, search_quotes, sortQuotesDesc,
        List.insertionSort, List.orderedInsert, group_by_book, groupByBookG,
        addQuoteG, sortGroupsG, groupKeyG, lookupBook, w6row, w6quote, w6group]
    rw [he]
    exact List.mem_singleton_self w6group
  exact ⟨(claim6_grouping_invariant {} [] [w6row] ['x'] none 0 20
      w6group hmem).1,
    (claim6_grouping_invariant {} [] [w6row] ['x'] none 0 20
      w6group hmem).2.1⟩

/-! ## Claim C7 -/

theorem pages_join {β : Type} (N : Nat) (hN : 0 < N) :
    ∀ (m : Nat) (L : List β), L.length ≤ m * N →
      ((List.range m).map (fun k => (L.drop (k * N)).take N)).flatten = L := by
  intro m
  induction m with
  | zero =>
    intro L hL
    simp only [Nat.zero_mul, Nat.le_zero] at hL
    rw [List.eq_nil_of_length_eq_zero hL]
    rfl
  | succ m ih =>
    intro L hL
    rw [List.range_succ_eq_map]
    simp only [List.map_cons, List.map_map, List.flatten_cons, Nat.zero_mul,
      List.drop_zero]
    have hfun : (List.range m).map
        ((fun k => (L.drop (k * N)).take N) ∘ Nat.succ) =
      (List.range m).map (fun k => ((L.drop N).drop (k * N)).take N) := by
      apply List.map_congr_left
      intro k _
      simp only [Function.comp_apply]
      rw [List.drop_drop]
      congr 2
      rw [Nat.succ_mul]
      exact Nat.add_comm _ _
    rw [hfun, ih (L.drop N) (by
      rw [List.length_drop]
      have hL' : L.length ≤ m * N + N := by
        rw [Nat.succ_mul] at hL
        exact hL
      omega)]
    exact List.take_append_drop N L

/-- C7: pagination over document groups is exact: concatenating the pages at
offsets 0, N, 2N, ... (each of size N, enough pages to cover the list)
reproduces the whole sorted group list with no duplicates or omissions, and
every page reports total equal to the pre-pagination, post-grouping group
count. -/
theorem claim7_pagination (s : QuoteScorer) (books : List BookRow)
    (hits : List QuoteRow) (fq : List Char) (ph : Option (List Char))
    (N m : Nat) (hN : 0 < N)
    (hm : (sortGroupsG fastDisplayScore
        (group_by_book books (search_quotes s hits fq ph))).length ≤ m * N) :
    ((List.range m).map
        (fun k => (search_and_score s books hits fq ph (k * N) N).results)).flatten =
      sortGroupsG fastDisplayScore
        (group_by_book books (search_quotes s hits fq ph)) ∧
    ∀ offset limit : Nat,
      (search_and_score s books hits fq ph offset limit).total =
        (group_by_book books (search_quotes s hits fq ph)).length := by
  constructor
  · have hp := pages_join N hN m _ hm
    simpa [search_and_score] using hp
  · intro offset limit
    simp [search_and_score, sortGroupsG, List.length_insertionSort]

/-- C7 witness: one book, page size 1, one page covers the single group;
concatenation reproduces the list and the total is the group count, via
claim7_pagination. -/
theorem claim7_pagination_witness :
    ((List.range 1).map
        (fun k => (search_and_score {} []
          [{ id := 1, book_id := 1, quote_text := ['a'], page := none,
             keywords := none, source_file := none, bm25_score := -1 }]
          ['x'] none (k * 1) 1).results)).flatten =
      sortGroupsG fastDisplayScore
        (group_by_book []
          (search_quotes {}
            [{ id := 1, book_id := 1, quote_text := ['a'], page := none,
               keywords := none, source_file := none, bm25_score := -1 }]
            ['x'] none)) ∧
    (search_and_score {} []
        [{ id := 1, book_id := 1, quote_text := ['a'], page := none,
           keywords := none, source_file := none, bm25_score := -1 }]
        ['x'] none 0 1).total =
      (group_by_book []
        (search_quotes {}
          [{ id := 1, book_id := 1, quote_text := ['a'], page := none,
             keywords := none, source_file := none, bm25_score := -1 }]
          ['x'] none)).length := by
  have h := claim7_pagination {} []
    [{ id := 1, book_id := 1, quote_text := ['a'], page := none,
       keywords := none, source_file := none, bm25_score := -1 }]
    ['x'] none 1 1 (by norm_num)
    (by
      simp [sortGroupsG, group_by_book, groupByBookG, search_quotes,
        sortQuotesDesc, List.insertionSort, List.orderedInsert, addQuoteG])
  exact ⟨h.1, h.2 0 1⟩

/-! ## Claim C5: word-boundary regex lemmas -/

theorem isPySpace_cases {d : Char} (h : isPySpace d = true) :
    d = ' ' ∨ d = '\t' ∨ d = '\n' ∨ d = '\r' ∨ d = '\x0b' ∨ d = '\x0c' := by
  simp only [isPySpace, Bool.or_eq_true, beq_iff_eq] at h
  tauto

theorem ws_toLower {d : Char} (h : isPySpace d = true) : d.toLower = d := by
  rcases isPySpace_cases h with rfl | rfl | rfl | rfl | rfl | rfl <;> decide

theorem ws_not_word {d : Char} (h : isPySpace d = true) :
    isWordChar d = false := by
  rcases isPySpace_cases h with rfl | rfl | rfl | rfl | rfl | rfl <;> decide

theorem ws_ne_wlower {w : List Char}
    (hw1 : ∀ wc ∈ w, isPySpace wc.toLower = false) {wc : Char} (hwc : wc ∈ w)
    {d : Char} (hd : isPySpace d = true) : d.toLower ≠ wc.toLower := by
  intro he
  rw [ws_toLower hd] at he
  have h2 := hw1 wc hwc
  rw [← he] at h2
  rw [hd] at h2
  simp at h2

theorem matchesCI_ws_head {wc : Char} {w' : List Char}
    (hw1 : ∀ x ∈ wc :: w', isPySpace x.toLower = false) {d : Char}
    (hd : isPySpace d = true) (l : List Char) :
    matchesCI (wc :: w') (d :: l) = false := by
  show (if d.toLower = wc.toLower then matchesCI w' l else false) = false
  rw [if_neg (ws_ne_wlower hw1 (by simp) hd)]

theorem matchesCI_length {w : List Char} :
    ∀ {t : List Char}, matchesCI w t = true → w.length ≤ t.length := by
  induction w with
  | nil => intro t _; simp
  | cons wc w' ih =>
    intro t h
    cases t with
    | nil => simp [matchesCI] at h
    | cons c t' =>
      unfold matchesCI at h
      split_ifs at h
      simpa using ih h

theorem matchesCI_append {b : List Char}
    (hb : b = [] ∨ ∃ d b', b = d :: b' ∧ isPySpace d = true) :
    ∀ (w t : List Char), (∀ wc ∈ w, isPySpace wc.toLower = false) →
      matchesCI w (t ++ b) = matchesCI w t := by
  intro w
  induction w with
  | nil => intro t _; rfl
  | cons wc w' ih =>
    intro t hw1
    cases t with
    | nil =>
      rw [List.nil_append]
      rcases hb with rfl | ⟨d, b', rfl, hd⟩
      · rfl
      · rw [matchesCI_ws_head hw1 hd]
        rfl
    | cons c t' =>
      show (if c.toLower = wc.toLower then matchesCI w' (t' ++ b) else false) =
        (if c.toLower = wc.toLower then matchesCI w' t' else false)
      split_ifs with hc
      · exact ih t' (fun x hx => hw1 x (by simp [hx]))
      · rfl

theorem boundaryAfter_append {b : List Char}
    (hb : b = [] ∨ ∃ d b', b = d :: b' ∧ isPySpace d = true)
    {w t : List Char} (hlen : w.length ≤ t.length) :
    boundaryAfter w (t ++ b) = boundaryAfter w t := by
  unfold boundaryAfter
  rw [List.drop_append_of_le_length hlen]
  rcases hdrop : t.drop w.length with _ | ⟨c, rest⟩
  · rcases hb with rfl | ⟨d, b', rfl, hd⟩
    · rfl
    · simp [ws_not_word hd]
  · simp

theorem condEq {b : List Char}
    (hb : b = [] ∨ ∃ d b', b = d :: b' ∧ isPySpace d = true)
    {w : List Char} (hw1 : ∀ wc ∈ w, isPySpace wc.toLower = false)
    (p : Bool) (c : Char) (t' : List Char) :
    (!p && matchesCI w ((c :: t') ++ b) && boundaryAfter w ((c :: t') ++ b)) =
      (!p && matchesCI w (c :: t') && boundaryAfter w (c :: t')) := by
  rw [matchesCI_append hb w (c :: t') hw1]
  rcases hm : matchesCI w (c :: t') with _ | _
  · simp
  · rw [boundaryAfter_append hb (matchesCI_length hm)]

theorem flagAfter_concat (d : Char) :
    ∀ (a : List Char) (p : Bool), flagAfter p (a ++ [d]) = isWordChar d := by
  intro a
  induction a with
  | nil => intro p; rfl
  | cons c a' ih => intro p; exact ih (isWordChar c)

theorem hasMatch_append {b : List Char}
    (hb : b = [] ∨ ∃ d b', b = d :: b' ∧ isPySpace d = true)
    {w : List Char} (hw1 : ∀ wc ∈ w, isPySpace wc.toLower = false) :
    ∀ (t : List Char) (p : Bool),
      hasMatch w p (t ++ b) =
        (hasMatch w p t || hasMatch w (flagAfter p t) b) := by
  intro t
  induction t with
  | nil => intro p; rfl
  | cons c t' ih =>
    intro p
    have hL : hasMatch w p ((c :: t') ++ b) =
        ((!p && matchesCI w ((c :: t') ++ b) &&
          boundaryAfter w ((c :: t') ++ b)) ||
          hasMatch w (isWordChar c) (t' ++ b)) := rfl
    rw [hL, condEq hb hw1 p c t', ih (isWordChar c), ← Bool.or_assoc]
    rfl

theorem hasMatch_of_suffix {w rest : List Char} :
    ∀ (a : List Char) (p : Bool),
      hasMatch w (flagAfter p a) rest = true →
        hasMatch w p (a ++ rest) = true := by
  intro a
  induction a with
  | nil => intro p h; exact h
  | cons c a' ih =>
    intro p h
    have hL : hasMatch w p ((c :: a') ++ rest) =
        ((!p && matchesCI w ((c :: a') ++ rest) &&
          boundaryAfter w ((c :: a') ++ rest)) ||
          hasMatch w (isWordChar c) (a' ++ rest)) := rfl
    rw [hL, ih (isWordChar c) h]
    simp

theorem subAux_nil (w rep : List Char) (p : Bool) : subAux w rep p [] = [] := by
  rw [subAux]

theorem subAux_cons (w rep : List Char) (p : Bool) (c : Char) (cs : List Char) :
    subAux w rep p (c :: cs) =
      if !p && matchesCI w (c :: cs) && boundaryAfter w (c :: cs) then
        rep ++ subAux w rep true (cs.drop (w.length - 1))
      else c :: subAux w rep (isWordChar c) cs := by
  rw [subAux]

theorem subAux_id_of_no_match {w rep : List Char} :
    ∀ (t : List Char) (p : Bool), hasMatch w p t = false →
      subAux w rep p t = t := by
  intro t
  induction t with
  | nil => intro p _; exact subAux_nil w rep p
  | cons c t' ih =>
    intro p h
    have hh : (!p && matchesCI w (c :: t') && boundaryAfter w (c :: t') ||
        hasMatch w (isWordChar c) t') = false := h
    rw [Bool.or_eq_false_iff] at hh
    rw [subAux_cons, if_neg (by simp [hh.1]), ih (isWordChar c) hh.2]

theorem subAux_append {b : List Char}
    (hb : b = [] ∨ ∃ d b', b = d :: b' ∧ isPySpace d = true)
    {w rep : List Char} (hw1 : ∀ wc ∈ w, isPySpace wc.toLower = false) :
    ∀ (t : List Char) (p : Bool), hasMatch w p t = false →
      subAux w rep p (t ++ b) = t ++ subAux w rep (flagAfter p t) b := by
  intro t
  induction t with
  | nil => intro p _; rfl
  | cons c t' ih =>
    intro p h
    have hh : (!p && matchesCI w (c :: t') && boundaryAfter w (c :: t') ||
        hasMatch w (isWordChar c) t') = false := h
    rw [Bool.or_eq_false_iff] at hh
    have hc := condEq hb hw1 p c t'
    rw [show ((c :: t') ++ b : List Char) = c :: (t' ++ b) from rfl] at hc
    rw [show ((c :: t') ++ b : List Char) = c :: (t' ++ b) from rfl,
      subAux_cons, if_neg (by rw [hc]; simp [hh.1]),
      ih (isWordChar c) hh.2]
    rfl

theorem subAux_sep_skip {wc : Char} {w' rep : List Char}
    (hw1 : ∀ x ∈ wc :: w', isPySpace x.toLower = false)
    (hO : wc.toLower ≠ 'o') (J : List Char) (p : Bool) :
    subAux (wc :: w') rep p (' ' :: 'O' :: 'R' :: ' ' :: J) =
      ' ' :: 'O' :: 'R' :: ' ' :: subAux (wc :: w') rep false J := by
  have hsp : matchesCI (wc :: w') (' ' :: 'O' :: 'R' :: ' ' :: J) = false :=
    matchesCI_ws_head hw1 (by decide) _
  have hsp2 : ∀ l, matchesCI (wc :: w') (' ' :: l) = false := fun l =>
    matchesCI_ws_head hw1 (by decide) l
  have hOm : matchesCI (wc :: w') ('O' :: 'R' :: ' ' :: J) = false := by
    show (if 'O'.toLower = wc.toLower then matchesCI w' ('R' :: ' ' :: J)
      else false) = false
    rw [if_neg (by
      intro he
      exact hO (by rw [← he]; decide))]
  rw [subAux_cons, if_neg (by simp [hsp])]
  rw [show isWordChar ' ' = false from rfl]
  rw [subAux_cons, if_neg (by simp [hOm])]
  rw [show isWordChar 'O' = true from rfl]
  rw [subAux_cons, if_neg (by simp)]
  rw [show isWordChar 'R' = true from rfl]
  rw [subAux_cons, if_neg (by simp)]
  rw [show isWordChar ' ' = false from rfl]

theorem subAux_sep_or (J : List Char) (p : Bool) :
    subAux ['o', 'r'] ['O', 'R'] p (' ' :: 'O' :: 'R' :: ' ' :: J) =
      ' ' :: 'O' :: 'R' :: ' ' :: subAux ['o', 'r'] ['O', 'R'] false J := by
  have hsp : ∀ l, matchesCI ['o', 'r'] (' ' :: l) = false := fun l => by
    show (if ' '.toLower = 'o'.toLower then matchesCI ['r'] l else false) = false
    rw [if_neg (by decide)]
  have hm : matchesCI ['o', 'r'] ('O' :: 'R' :: ' ' :: J) = true := by
    show (if 'O'.toLower = 'o'.toLower then
      (if 'R'.toLower = 'r'.toLower then matchesCI [] (' ' :: J) else false)
      else false) = true
    rw [if_pos (by decide), if_pos (by decide)]
    rfl
  have hbd : boundaryAfter ['o', 'r'] ('O' :: 'R' :: ' ' :: J) = true := by
    show (match ((' ' :: J : List Char)).head? with
      | none => true
      | some c => !isWordChar c) = true
    rfl
  rw [subAux_cons, if_neg (by simp [hsp])]
  rw [show isWordChar ' ' = false from rfl]
  rw [subAux_cons, if_pos (by simp [hm, hbd])]
  rw [show (('R' :: ' ' :: J : List Char)).drop (['o', 'r'].length - 1) =
    ' ' :: J from rfl]
  rw [subAux_cons, if_neg (by simp)]
  rw [show isWordChar ' ' = false from rfl]
  rfl

theorem intercalate_nil (sep : List Char) : List.intercalate sep [] = [] := by
  simp [List.intercalate]

theorem intercalate_single (sep t : List Char) :
    List.intercalate sep [t] = t := by
  simp [List.intercalate, List.intersperse]

theorem intercalate_cons2 (sep a b : List Char) (l : List (List Char)) :
    List.intercalate sep (a :: b :: l) =
      a ++ sep ++ List.intercalate sep (b :: l) := by
  simp [List.intercalate, List.intersperse]

theorem subAux_intercalate_skip {wc : Char} {w' rep : List Char}
    (hw1 : ∀ x ∈ wc :: w', isPySpace x.toLower = false)
    (hO : wc.toLower ≠ 'o') :
    ∀ ts : List (List Char),
      (∀ t ∈ ts, hasMatch (wc :: w') false t = false) →
      subAux (wc :: w') rep false (List.intercalate [' ', 'O', 'R', ' '] ts) =
        List.intercalate [' ', 'O', 'R', ' '] ts := by
  intro ts
  induction ts with
  | nil =>
    intro _
    rw [intercalate_nil]
    exact subAux_nil _ _ _
  | cons t ts' ih =>
    intro hclean
    cases ts' with
    | nil =>
      rw [intercalate_single]
      exact subAux_id_of_no_match t false (hclean t (by simp))
    | cons t2 rest =>
      rw [intercalate_cons2, List.append_assoc]
      have hbs : ([' ', 'O', 'R', ' '] ++
            List.intercalate [' ', 'O', 'R', ' '] (t2 :: rest) : List Char) =
              [] ∨
          ∃ d b', ([' ', 'O', 'R', ' '] ++
            List.intercalate [' ', 'O', 'R', ' '] (t2 :: rest) : List Char) =
              d :: b' ∧ isPySpace d = true :=
        Or.inr ⟨' ', ['O', 'R', ' '] ++
          List.intercalate [' ', 'O', 'R', ' '] (t2 :: rest), rfl, by decide⟩
      rw [subAux_append hbs hw1 t false (hclean t (by simp))]
      rw [show ([' ', 'O', 'R', ' '] ++
          List.intercalate [' ', 'O', 'R', ' '] (t2 :: rest) : List Char) =
        ' ' :: 'O' :: 'R' :: ' ' ::
          List.intercalate [' ', 'O', 'R', ' '] (t2 :: rest) from rfl]
      rw [subAux_sep_skip hw1 hO]
      rw [ih (fun x hx => hclean x (by simp [hx]))]

theorem subAux_intercalate_or :
    ∀ ts : List (List Char),
      (∀ t ∈ ts, hasMatch ['o', 'r'] false t = false) →
      subAux ['o', 'r'] ['O', 'R'] false
          (List.intercalate [' ', 'O', 'R', ' '] ts) =
        List.intercalate [' ', 'O', 'R', ' '] ts := by
  intro ts
  induction ts with
  | nil =>
    intro _
    rw [intercalate_nil]
    exact subAux_nil _ _ _
  | cons t ts' ih =>
    intro hclean
    cases ts' with
    | nil =>
      rw [intercalate_single]
      exact subAux_id_of_no_match t false (hclean t (by simp))
    | cons t2 rest =>
      rw [intercalate_cons2, List.append_assoc]
      have hbs : ([' ', 'O', 'R', ' '] ++
            List.intercalate [' ', 'O', 'R', ' '] (t2 :: rest) : List Char) =
              [] ∨
          ∃ d b', ([' ', 'O', 'R', ' '] ++
            List.intercalate [' ', 'O', 'R', ' '] (t2 :: rest) : List Char) =
              d :: b' ∧ isPySpace d = true :=
        Or.inr ⟨' ', ['O', 'R', ' '] ++
          List.intercalate [' ', 'O', 'R', ' '] (t2 :: rest), rfl, by decide⟩
      rw [subAux_append hbs (by decide) t false (hclean t (by simp))]
      rw [show ([' ', 'O', 'R', ' '] ++
          List.intercalate [' ', 'O', 'R', ' '] (t2 :: rest) : List Char) =
        ' ' :: 'O' :: 'R' :: ' ' ::
          List.intercalate [' ', 'O', 'R', ' '] (t2 :: rest) from rfl]
      rw [subAux_sep_or]
      rw [ih (fun x hx => hclean x (by simp [hx]))]

theorem dropWhile_head_false (p : Char → Bool) (s : List Char)
    (h : s.dropWhile p ≠ []) :
    ∃ c cs, s.dropWhile p = c :: cs ∧ p c = false := by
  rcases hx : s.dropWhile p with _ | ⟨c, cs⟩
  · exact absurd hx h
  · refine ⟨c, cs, rfl, ?_⟩
    have h3 := List.head_dropWhile_not p s h
    have h5 := List.head?_eq_head (l := s.dropWhile p) h
    have h6 : (s.dropWhile p).head? = some c := by rw [hx]; rfl
    have h4 := Option.some.inj (h5.symm.trans h6)
    rwa [h4] at h3

theorem splitWords_eq (s : List Char) :
    splitWords s =
      if s.dropWhile isPySpace = [] then []
      else ((s.dropWhile isPySpace).takeWhile (fun c => !isPySpace c)) ::
        splitWords ((s.dropWhile isPySpace).dropWhile (fun c => !isPySpace c)) := by
  rw [splitWords]
  by_cases h : s.dropWhile isPySpace = []
  · rw [dif_pos h, if_pos h]
  · rw [dif_neg h, if_neg h]

theorem splitWords_nil : splitWords [] = [] := by
  rw [splitWords_eq]
  rfl

theorem splitWords_decomp :
    ∀ (n : Nat) (s : List Char), s.length ≤ n → ∀ t ∈ splitWords s,
      t ≠ [] ∧ (∀ c ∈ t, isPySpace c = false) ∧
      ∃ a b, s = a ++ t ++ b ∧
        (a = [] ∨ ∃ a' d, a = a' ++ [d] ∧ isPySpace d = true) ∧
        (b = [] ∨ ∃ d b', b = d :: b' ∧ isPySpace d = true) := by
  intro n
  induction n with
  | zero =>
    intro s hs t ht
    have hsn : s = [] := List.eq_nil_of_length_eq_zero (Nat.le_zero.mp hs)
    subst hsn
    rw [splitWords_nil] at ht
    exact absurd ht (List.not_mem_nil t)
  | succ n ih =>
    intro s hs t ht
    rw [splitWords_eq] at ht
    by_cases hnil : s.dropWhile isPySpace = []
    · rw [if_pos hnil] at ht
      exact absurd ht (List.not_mem_nil t)
    · rw [if_neg hnil] at ht
      obtain ⟨c, cs, hcs, hc⟩ := dropWhile_head_false isPySpace s hnil
      have htk : s = s.takeWhile isPySpace ++ s.dropWhile isPySpace :=
        (List.takeWhile_append_dropWhile _ _).symm
      have hsd : s.dropWhile isPySpace =
          (s.dropWhile isPySpace).takeWhile (fun c => !isPySpace c) ++
            (s.dropWhile isPySpace).dropWhile (fun c => !isPySpace c) :=
        (List.takeWhile_append_dropWhile _ _).symm
      have htkws : ∀ d ∈ s.takeWhile isPySpace, isPySpace d = true :=
        fun d hd => List.mem_takeWhile_imp hd
      rcases List.mem_cons.mp ht with rfl | htail
      · -- t is the first word
        have htne : (s.dropWhile isPySpace).takeWhile
            (fun c => !isPySpace c) ≠ [] := by
          rw [hcs, List.takeWhile_cons_of_pos (by simp [hc])]
          simp
        have htws : ∀ x ∈ (s.dropWhile isPySpace).takeWhile
            (fun c => !isPySpace c), isPySpace x = false := by
          intro x hx
          have := List.mem_takeWhile_imp hx
          simpa using this
        refine ⟨htne, htws, s.takeWhile isPySpace,
          (s.dropWhile isPySpace).dropWhile (fun c => !isPySpace c), ?_, ?_, ?_⟩
        · conv_lhs => rw [htk, hsd]
          simp [List.append_assoc]
        · rcases List.eq_nil_or_concat (s.takeWhile isPySpace) with he | ⟨L, d, he⟩
          · exact Or.inl he
          · refine Or.inr ⟨L, d, by rw [he, List.concat_eq_append], ?_⟩
            apply htkws
            rw [he, List.concat_eq_append]
            exact List.mem_append_right _ (by simp)
        · by_cases hre : (s.dropWhile isPySpace).dropWhile
              (fun c => !isPySpace c) = []
          · exact Or.inl hre
          · obtain ⟨d, b', hdb, hd⟩ :=
              dropWhile_head_false (fun c => !isPySpace c) _ hre
            exact Or.inr ⟨d, b', hdb, by simpa using hd⟩
      · -- t is a later word
        have hrest : ((s.dropWhile isPySpace).dropWhile
            (fun c => !isPySpace c)).length ≤ n := by
          have h1 : (s.dropWhile isPySpace).length ≤ s.length :=
            (List.dropWhile_sublist _).length_le
          have h2 : ((s.dropWhile isPySpace).dropWhile
              (fun c => !isPySpace c)).length ≤ cs.length := by
            rw [hcs, List.dropWhile_cons]
            simp only [hc]
            simpa using
              (List.dropWhile_sublist (l := cs)
                (p := fun c => !isPySpace c)).length_le
          rw [hcs] at h1
          simp only [List.length_cons] at h1
          omega
        obtain ⟨hne, hws, a2, b2, hsp, ha2, hb2⟩ := ih _ hrest t htail
        have ha2ne : a2 ≠ [] := by
          intro he
          subst he
          rw [List.nil_append] at hsp
          obtain ⟨d, b', hdb, hd⟩ :=
            dropWhile_head_false (fun c => !isPySpace c) (s.dropWhile isPySpace)
              (by
                intro hcon
                rw [hcon] at hsp
                rcases t with _ | ⟨t0, ts⟩
                · exact hne rfl
                · simp at hsp)
          rcases t with _ | ⟨t0, ts⟩
          · exact hne rfl
          · rw [hdb] at hsp
            have ht0 : t0 = d := by
              have := congrArg List.head? hsp
              simpa using this.symm
            have hd' : isPySpace d = true := by simpa using hd
            rw [← ht0] at hd'
            have := hws t0 (by simp)
            rw [this] at hd'
            simp at hd'
        obtain ⟨a2', d, ha2e, hd⟩ : ∃ a2' d, a2 = a2' ++ [d] ∧ isPySpace d = true := by
          rcases ha2 with he | h
          · exact absurd he ha2ne
          · exact h
        refine ⟨hne, hws, s.takeWhile isPySpace ++
          ((s.dropWhile isPySpace).takeWhile (fun c => !isPySpace c)) ++ a2,
          b2, ?_, ?_, hb2⟩
        · conv_lhs => rw [htk, hsd, hsp]
          simp [List.append_assoc]
        · refine Or.inr ⟨s.takeWhile isPySpace ++
            ((s.dropWhile isPySpace).takeWhile (fun c => !isPySpace c)) ++ a2',
            d, ?_, hd⟩
          rw [ha2e]
          simp [List.append_assoc]

theorem term_clean {w : List Char} (hw1 : ∀ wc ∈ w, isPySpace wc.toLower = false)
    {s : List Char} (hs : hasMatch w false s = false) :
    ∀ t ∈ splitWords s, hasMatch w false t = false := by
  intro t ht
  by_contra hcon
  rw [Bool.not_eq_false] at hcon
  obtain ⟨_, _, a, b, hsplit, ha, hb⟩ :=
    splitWords_decomp s.length s le_rfl t ht
  have h1 : hasMatch w false (t ++ b) = true := by
    rw [hasMatch_append hb hw1 t false, hcon]
    rfl
  have hfa : flagAfter false a = false := by
    rcases ha with rfl | ⟨a', d, rfl, hd⟩
    · rfl
    · rw [flagAfter_concat d a' false, ws_not_word hd]
  have h2 : hasMatch w false (a ++ (t ++ b)) = true := by
    apply hasMatch_of_suffix
    rw [hfa]
    exact h1
  rw [← List.append_assoc, ← hsplit] at h2
  rw [hs] at h2
  exact Bool.false_ne_true h2

theorem collapseWS_nil : collapseWS [] = [] := by
  rw [collapseWS]

theorem collapseWS_cons (c : Char) (cs : List Char) :
    collapseWS (c :: cs) =
      if isPySpace c then ' ' :: collapseWS (cs.dropWhile isPySpace)
      else c :: collapseWS cs := by
  rw [collapseWS]

theorem collapseWS_ws :
    ∀ (n : Nat) (q : List Char), q.length ≤ n →
      (∀ c ∈ q, isPySpace c = true) →
      ∀ c ∈ collapseWS q, isPySpace c = true := by
  intro n
  induction n with
  | zero =>
    intro q hq _
    rw [List.eq_nil_of_length_eq_zero (Nat.le_zero.mp hq), collapseWS_nil]
    simp
  | succ n ih =>
    intro q hq hws c hc
    rcases q with _ | ⟨d, ds⟩
    · rw [collapseWS_nil] at hc
      exact absurd hc (List.not_mem_nil c)
    · rw [collapseWS_cons, if_pos (hws d (by simp))] at hc
      rcases List.mem_cons.mp hc with rfl | hc2
      · decide
      · refine ih (ds.dropWhile isPySpace) ?_ ?_ c hc2
        · have h1 := (List.dropWhile_sublist (l := ds)
            (p := isPySpace)).length_le
          simp only [List.length_cons] at hq
          omega
        · intro x hx
          exact hws x (by
            simp only [List.mem_cons]
            exact Or.inr ((List.dropWhile_sublist _).subset hx))

theorem stripEnds_of_ws {l : List Char} (h : ∀ c ∈ l, isPySpace c = true) :
    stripEnds l = [] := by
  unfold stripEnds
  rw [List.dropWhile_eq_nil_iff.mpr (fun x hx => h x hx)]
  rfl

/-! ## Claim C5: main theorem -/

/-- C5: for every query whose normalized text (whitespace collapsed and
stripped) contains no boolean operator AND/OR/NOT (case-insensitive, whole
words) and splits into more than one whitespace-delimited term, parse
returns the terms joined with " OR ". -/
theorem claim5_or_join (q : List Char)
    (hops : hasOpMatch (stripEnds (collapseWS q)) = false)
    (hterms : 1 < (splitWords (stripEnds (collapseWS q))).length) :
    (parse q).fts_query =
      List.intercalate [' ', 'O', 'R', ' ']
        (splitWords (stripEnds (collapseWS q))) := by
  have h1 := Bool.or_eq_false_iff.mp hops
  have h2 := Bool.or_eq_false_iff.mp h1.1
  have hnq : stripEnds q ≠ [] := by
    intro h0
    have hws := stripEnds_all_ws h0
    have hcw := collapseWS_ws q.length q le_rfl hws
    have he : stripEnds (collapseWS q) = [] := stripEnds_of_ws hcw
    rw [he, splitWords_nil] at hterms
    simp at hterms
  have hp : (parse q).fts_query = convert_to_fts q := by
    rw [parse, if_neg hnq]
  rw [hp]
  have hand_id : subWord ['a', 'n', 'd'] ['A', 'N', 'D']
      (List.intercalate [' ', 'O', 'R', ' ']
        (splitWords (stripEnds (collapseWS q)))) =
      List.intercalate [' ', 'O', 'R', ' ']
        (splitWords (stripEnds (collapseWS q))) :=
    subAux_intercalate_skip (by decide) (by decide) _
      (term_clean (by decide) h2.1)
  have hor_id : subWord ['o', 'r'] ['O', 'R']
      (List.intercalate [' ', 'O', 'R', ' ']
        (splitWords (stripEnds (collapseWS q)))) =
      List.intercalate [' ', 'O', 'R', ' ']
        (splitWords (stripEnds (collapseWS q))) :=
    subAux_intercalate_or _ (term_clean (by decide) h2.2)
  have hnot_id : subWord ['n', 'o', 't'] ['N', 'O', 'T']
      (List.intercalate [' ', 'O', 'R', ' ']
        (splitWords (stripEnds (collapseWS q)))) =
      List.intercalate [' ', 'O', 'R', ' ']
        (splitWords (stripEnds (collapseWS q))) :=
    subAux_intercalate_skip (by decide) (by decide) _
      (term_clean (by decide) h1.2)
  have hspmem : ' ' ∈ List.intercalate [' ', 'O', 'R', ' ']
      (splitWords (stripEnds (collapseWS q))) := by
    rcases hts : splitWords (stripEnds (collapseWS q)) with _ | ⟨t1, _ | ⟨t2, ts⟩⟩
    · rw [hts] at hterms
      simp at hterms
    · rw [hts] at hterms
      simp at hterms
    · rw [intercalate_cons2]
      exact List.mem_append_left _ (List.mem_append_right _ (by decide))
  unfold convert_to_fts
  simp only
  rw [if_pos (And.intro hops hterms)]
  rw [hand_id, hor_id, hnot_id]
  rw [if_neg (by
    rintro (hx | hx | hx | hx) <;> rw [hx] at hspmem <;>
      revert hspmem <;> decide)]

/-- C5 witness: the query "a b" (no operators, two terms) parses to
"a OR b", via claim5_or_join. -/
theorem claim5_or_join_witness :
    (parse ['a', ' ', 'b']).fts_query = ['a', ' ', 'O', 'R', ' ', 'b'] := by
  have hcol : collapseWS ['a', ' ', 'b'] = ['a', ' ', 'b'] := by
    simp [collapseWS_cons, collapseWS_nil, isPySpace]
  have hs : stripEnds (collapseWS ['a', ' ', 'b']) = ['a', ' ', 'b'] := by
    rw [hcol]
    decide
  have hsplit : splitWords ['a', ' ', 'b'] = [['a'], ['b']] := by
    simp [splitWords_eq, splitWords_nil, isPySpace]
  have h := claim5_or_join ['a', ' ', 'b']
    (by rw [hs]; decide)
    (by rw [hs, hsplit]; decide)
  rw [h, hs, hsplit]
  decide
